import Mathlib

set_option maxRecDepth 100000

/-!
Verification of the statistical engine of the NeuroMeta repository
(src/utils/meta_analysis.py and src/utils/statistics.py) against its
natural-language specification.

Volumes are modelled as a shape (X, Y, Z) together with the flattened
row-major list of rational voxel intensities (the `get_fdata()` array).
Irrational library primitives (scipy's `stats.norm.cdf`, `np.sqrt`, and
the Gaussian filter) are abstracted as function parameters of the
embedding; every arithmetic step written out in the source is embedded
concretely over ℚ.
-/

attribute [local semireducible] Rat.mul Rat.inv Rat.add Rat.sub Rat.ofScientific

/-- A 3D volume: shape (dimx, dimy, dimz) plus the flattened row-major
list of voxel values, as produced by `get_fdata()`. -/
structure Volume where
  dimx : ℕ
  dimy : ℕ
  dimz : ℕ
  data : List ℚ
deriving DecidableEq, Repr

/-- Errors of the embedding. Every failure in the source code is a Python
`ValueError` carrying a formatted message (the `except` blocks re-raise
everything as `ValueError`). The remaining constructors are the typed
taxonomy of the specification's error-handling design. Modelled from the
spec: `InvalidInput`, `InsufficientInput`, `UnsupportedMethod` and
`ComputationFailure` appear in the spec's section 7 but nowhere in the
code. -/
inductive AnalysisError where
  | valueError (msg : String)
  | invalidInput
  | insufficientInput
  | unsupportedMethod
  | computationFailure
deriving DecidableEq, Repr

instance {α β : Type} [DecidableEq α] [DecidableEq β] : DecidableEq (Except α β) := fun x y =>
  match x, y with
  | Except.ok a, Except.ok b => decidable_of_iff (a = b) (by simp)
  | Except.error a, Except.error b => decidable_of_iff (a = b) (by simp)
  | Except.ok _, Except.error _ => isFalse (by simp)
  | Except.error _, Except.ok _ => isFalse (by simp)

/-- Maximum entry of a list, as `np.max` on a non-empty array; the value
on the empty list is irrelevant to the claims (numpy would raise). -/
def listMax : List ℚ → ℚ
  | [] => 0
  | x :: xs => xs.foldl max x

/-- Minimum entry of a list, as `np.min` on a non-empty array. -/
def listMin : List ℚ → ℚ
  | [] => 0
  | x :: xs => xs.foldl min x

/-- Maximum of a list of naturals (`max(...)` over cluster sizes). -/
def listMaxNat : List ℕ → ℕ
  | [] => 0
  | x :: xs => xs.foldl max x

/-- The all-zero volume of the same shape as `v`: `np.zeros_like(v)`. -/
def zerosLike (v : Volume) : Volume :=
  ⟨v.dimx, v.dimy, v.dimz, List.replicate v.data.length 0⟩

/-- Voxelwise addition `acc += d` (numpy `+=` keeps the accumulator's
shape; the operands have equal shape in every use). -/
def addVol (acc d : Volume) : Volume :=
  { acc with data := List.zipWith (· + ·) acc.data d.data }

/-- Voxelwise division by a scalar: `v /= k`. -/
def divVol (v : Volume) (k : ℚ) : Volume :=
  { v with data := v.data.map (· / k) }

/-- The pooled ALE volume of `perform_ale_analysis`
(src/utils/meta_analysis.py, lines 15-23):
`ale_values = np.zeros_like(data_arrays[0])`, then
`ale_values += gaussian_filter(data, sigma=3.0)` for each study,
then `ale_values /= len(data_arrays)`. The parameter `smooth` abstracts
`ndimage.gaussian_filter(·, sigma=3.0)`, a deterministic shape-preserving
library routine. -/
def aleValuesOf (smooth : Volume → Volume) (data_arrays : List Volume) : Volume :=
  divVol
    (data_arrays.foldl (fun acc d => addVol acc (smooth d))
      (zerosLike (data_arrays.headD ⟨0, 0, 0, []⟩)))
    (data_arrays.length : ℚ)

/-- Voxelwise mean of a stack of same-shape volumes:
`np.mean([...], axis=0)`, i.e. voxelwise sum divided by the count. -/
def meanVols (l : List Volume) : Volume :=
  divVol (l.foldl addVol (zerosLike (l.headD ⟨0, 0, 0, []⟩))) (l.length : ℚ)

/-- One iteration of the null-estimation loop of `perform_ale_analysis`
(lines 27-31), as a function of the drawn reordering `shuffled` of the
study collection: `null_ale = np.mean([gaussian_filter(d, sigma=3.0) for
d in shuffled], axis=0)` followed by `np.max(null_ale)`. -/
def nullSampleOf (smooth : Volume → Volume) (shuffled : List Volume) : ℚ :=
  listMax (meanVols (shuffled.map smooth)).data

/-- Voxel thresholding, `ale_values[ale_values < threshold] = 0`
(src/utils/meta_analysis.py, lines 35-36). -/
def voxelThreshold (v : Volume) (t : ℚ) : Volume :=
  { v with data := v.data.map (fun x => if x < t then 0 else x) }

/-- Insert into a sorted list of rationals (ascending). -/
def insertSorted (a : ℚ) : List ℚ → List ℚ
  | [] => [a]
  | b :: bs => if a ≤ b then a :: b :: bs else b :: insertSorted a bs

/-- Insertion sort (ascending), used to model numpy's internal sort. -/
def insertionSort : List ℚ → List ℚ
  | [] => []
  | a :: as => insertSorted a (insertionSort as)

/-- Linear-interpolation kernel of `np.percentile`: with `s` the sorted
data of length `n`, the result is `s[k] + frac * (s[k+1] - s[k])` where
`k = floor h` and `frac = h - floor h` for `h = (n - 1) * q / 100`. -/
def interpolatedValue (s : List ℚ) (n : ℕ) (q : ℚ) : ℚ :=
  let h : ℚ := ((n : ℚ) - 1) * q / 100
  let k : ℕ := h.floor.toNat
  let lo := s.getD k 0
  let hi := s.getD (k + 1) lo
  lo + (h - (h.floor : ℚ)) * (hi - lo)

/-- Modelled library call: `np.percentile(xs, q)` with the default linear
interpolation. On an empty input numpy raises (IndexError: cannot do a
non-empty take from an empty axes), and it raises on q outside [0, 100];
both are modelled as errors. On a non-empty input the value at fractional
position h = (n - 1) * q / 100 of the sorted data is interpolated
linearly between the two neighbouring order statistics. -/
def percentile (xs : List ℚ) (q : ℚ) : Except String ℚ :=
  match xs with
  | [] => Except.error "cannot do a non-empty take from an empty axes."
  | x :: rest =>
    if q < 0 ∨ 100 < q then
      Except.error "Percentiles must be in the range [0, 100]"
    else
      Except.ok (interpolatedValue (insertionSort (x :: rest)) ((x :: rest).length) q)

/-- Shallow embedding of `perform_ale_analysis`
(src/utils/meta_analysis.py, lines 6-41). `smooth` abstracts the
Gaussian filter; `draws` is the explicit list of reorderings drawn by
`np.random.permutation` in the 1000-iteration loop (the source uses an
implicit global random source). On an empty study collection the line
`np.zeros_like(data_arrays[0])` raises IndexError, re-raised by the
`except` block as a `ValueError` with the formatted message. -/
def performAleAnalysis (smooth : Volume → Volume) (draws : List (List Volume))
    (nifti_maps : List Volume) (fwe_correction : Bool) (p_threshold : ℚ) :
    Except AnalysisError Volume :=
  match nifti_maps with
  | [] => Except.error (AnalysisError.valueError
      "Error in ALE analysis: list index out of range")
  | m :: rest =>
    let ale_values := aleValuesOf smooth (m :: rest)
    if fwe_correction then
      let null_distributions := draws.map (nullSampleOf smooth)
      match percentile null_distributions ((1 - p_threshold) * 100) with
      | Except.error e => Except.error (AnalysisError.valueError
          ("Error in ALE analysis: " ++ e))
      | Except.ok threshold => Except.ok (voxelThreshold ale_values threshold)
    else
      Except.ok ale_values

/-- Model of Python's `str.lower()` for the ASCII method names the
dispatch compares against (maps A-Z to a-z, leaves all else alone). -/
def pyLower (s : String) : String :=
  String.mk (s.data.map (fun c => if 'A' ≤ c ∧ c ≤ 'Z' then Char.ofNat (c.toNat + 32) else c))

/-- In-bounds face-adjacent neighbour flat indices (6-connectivity, the
default structuring element of `scipy.ndimage.label`) of flat index n in
an (X, Y, Z) grid stored in row-major order. -/
def neighbors (X Y Z n : ℕ) : List ℕ :=
  let a := n / (Y * Z)
  let b := (n / Z) % Y
  let c := n % Z
  (if a + 1 < X then [((a + 1) * Y + b) * Z + c] else []) ++
  (if 0 < a then [((a - 1) * Y + b) * Z + c] else []) ++
  (if b + 1 < Y then [(a * Y + (b + 1)) * Z + c] else []) ++
  (if 0 < b then [(a * Y + (b - 1)) * Z + c] else []) ++
  (if c + 1 < Z then [(a * Y + b) * Z + (c + 1)] else []) ++
  (if 0 < c then [(a * Y + b) * Z + (c - 1)] else [])

/-- Flood-fill of one connected component of the mask, writing label
`cur` into the label list; fuel-bounded worklist traversal (each cell is
labelled at most once and pushes at most six neighbours, so fuel
`6 * mask.length + 1` always suffices). -/
def flood (X Y Z : ℕ) (mask : List Bool) (cur : ℕ) :
    ℕ → List ℕ → List ℕ → List ℕ
  | 0, _, lab => lab
  | _ + 1, [], lab => lab
  | fuel + 1, n :: stack, lab =>
      if mask.getD n false && decide (lab.getD n 0 = 0) then
        flood X Y Z mask cur fuel (neighbors X Y Z n ++ stack) (lab.set n cur)
      else
        flood X Y Z mask cur fuel stack lab

/-- Raster scan of the grid: each unlabelled positive cell starts a new
component, labelled `num + 1` and flood-filled. The accumulator is the
pair (number of features so far, label list). -/
def labelScan (X Y Z : ℕ) (mask : List Bool) :
    List ℕ → ℕ × List ℕ → ℕ × List ℕ
  | [], acc => acc
  | n :: rest, acc =>
      if mask.getD n false && decide (acc.2.getD n 0 = 0) then
        labelScan X Y Z mask rest
          (acc.1 + 1, flood X Y Z mask (acc.1 + 1) (6 * mask.length + 1) [n] acc.2)
      else
        labelScan X Y Z mask rest acc

/-- Modelled library call: `scipy.ndimage.label` on a boolean mask over
an (X, Y, Z) grid with the default face-connectivity structuring element,
returning the label array (0 for background, component ids 1..N assigned
in raster-scan order of first occurrence) and the number of features N. -/
def ndimageLabelMask (X Y Z : ℕ) (mask : List Bool) : List ℕ × ℕ :=
  let r := labelScan X Y Z mask (List.range mask.length) (0, List.replicate mask.length 0)
  (r.2, r.1)

/-- The call `ndimage.label(stat_map > 0)` of `apply_cluster_correction`
(src/utils/meta_analysis.py, line 48). -/
def ndimageLabel (v : Volume) : List ℕ × ℕ :=
  ndimageLabelMask v.dimx v.dimy v.dimz (v.data.map (fun q => decide (0 < q)))

/-- The list `cluster_sizes = [np.sum(labeled_array == i) for i in
range(1, num_features + 1)]` (line 49). -/
def clusterSizesArr (labeled_array : List ℕ) (num_features : ℕ) : List ℕ :=
  (List.range' 1 num_features).map
    (fun i => labeled_array.countP (fun l => decide (l = i)))

/-- One in-place masked assignment `stat_map[labeled_array == i] = 0`. -/
def zeroWhere (lab : List ℕ) (i : ℕ) (data : List ℚ) : List ℚ :=
  List.zipWith (fun x l => if l = i then 0 else x) data lab

/-- The correction loops of `apply_cluster_correction`: iterate over
`enumerate(cluster_sizes, 1)` (respectively `enumerate(corrected_p, 1)`)
and zero out cluster i whenever its statistic fails the test. -/
def corrLoop {α : Type} (lab : List ℕ) (test : α → Bool) :
    List (ℕ × α) → List ℚ → List ℚ
  | [], data => data
  | (i, a) :: rest, data =>
      corrLoop lab test rest (if test a then zeroWhere lab i data else data)

/-- Shallow embedding of `apply_cluster_correction`
(src/utils/meta_analysis.py, lines 43-68). `normCdf` abstracts scipy's
`stats.norm.cdf`, an irrational-valued library function, as a parameter
of the embedding. The method dispatch is `method.lower()`; a method that
matches neither branch falls through the `if`/`elif` and the (labelled
but unmodified) input is returned. In the FDR branch the source first
evaluates the `p_values` comprehension (line 60) and then looks up
`stats.fdrcorrection` (line 61) on the `stats` module imported from
scipy; `scipy.stats` has no `fdrcorrection` attribute (the routine of
that name and signature belongs to statsmodels), so the lookup raises
AttributeError, re-raised by the `except` block as a `ValueError`,
before any cluster is modified. All writes happen through the masked
in-place assignments modelled by `zeroWhere`. -/
def applyClusterCorrection (normCdf : ℚ → ℚ) (stat_map : Volume)
    (method : String) (p_threshold : ℚ) : Except AnalysisError Volume :=
  let labeled := ndimageLabel stat_map
  let labeled_array := labeled.1
  let cluster_sizes : List ℕ := clusterSizesArr labeled_array labeled.2
  if pyLower method = "fwe" then
    match percentile (cluster_sizes.map (fun (s : ℕ) => (s : ℚ))) ((1 - p_threshold) * 100) with
    | Except.error e =>
        Except.error (AnalysisError.valueError ("Error in cluster correction: " ++ e))
    | Except.ok size_threshold =>
        Except.ok { stat_map with
          data := corrLoop labeled_array (fun (size : ℕ) => decide ((size : ℚ) < size_threshold))
            ((List.range' 1 cluster_sizes.length).zip cluster_sizes) stat_map.data }
  else if pyLower method = "fdr" then
    let p_values := cluster_sizes.map (fun (size : ℕ) => 1 - normCdf (size : ℚ))
    Except.error (AnalysisError.valueError
      "Error in cluster correction: module scipy.stats has no attribute fdrcorrection")
  else
    Except.ok stat_map

/-- Contents of the caller's `stat_map` buffer after the call: the source
mutates its argument through `stat_map[labeled_array == i] = 0` and then
returns that same array object, so on success the input buffer holds
exactly the returned volume; every failing path (the empty percentile in
the FWE branch, the missing `fdrcorrection` attribute in the FDR branch)
raises before any masked assignment, leaving the buffer untouched. -/
def clusterCorrectionInputAfter (normCdf : ℚ → ℚ) (stat_map : Volume)
    (method : String) (p_threshold : ℚ) : Volume :=
  match applyClusterCorrection normCdf stat_map method p_threshold with
  | Except.ok v => v
  | Except.error _ => stat_map

/-- A fixed stand-in for the abstract `normCdf` parameter, used by the
concrete witnesses (the FWE and fall-through branches ignore it). -/
def normCdfStub : ℚ → ℚ := fun _ => 1 / 2

/-- A 1 x 1 x 108 volume whose positive clusters have sizes
[1, 1, 1, 1, 100]: four isolated voxels followed by a contiguous run of
one hundred voxels (the synthetic scenario of the specification). -/
def fweScenarioMap : Volume :=
  ⟨1, 1, 108, [1, 0, 1, 0, 1, 0, 1, 0] ++ List.replicate 100 1⟩

/-- Clusters of `identify_clusters` (src/utils/statistics.py, lines
46-64): threshold the data at `data_array > threshold` (default 0.5),
label connected components, and return for each label 1..N the value of
`np.where(labeled_array == label)` - for a 3-D array, the tuple of the
three per-axis coordinate arrays of the voxels carrying that label,
modelled as a three-element list of coordinate lists. Note the Python
`len(cluster)` is therefore the number of axes (3), not the voxel
count. -/
def identifyClusters (v : Volume) (threshold : ℚ) : List (List (List ℕ)) :=
  let mask := v.data.map (fun q => decide (threshold < q))
  let r := ndimageLabelMask v.dimx v.dimy v.dimz mask
  (List.range' 1 r.2).map (fun label =>
    let idxs := (List.range r.1.length).filter (fun n => decide (r.1.getD n 0 = label))
    [idxs.map (fun n => n / (v.dimy * v.dimz)),
     idxs.map (fun n => (n / v.dimz) % v.dimy),
     idxs.map (fun n => n % v.dimz)])

/-- Rounding to 4 decimal places with ties to even, as applied by the
pandas `round(4)` calls of `generate_statistics_report`. -/
def round4 (q : ℚ) : ℚ :=
  let x := q * 10000
  let n := x.floor
  let frac := x - (n : ℚ)
  ((if frac < 1 / 2 then n
    else if 1 / 2 < frac then n + 1
    else if n % 2 = 0 then n else n + 1 : ℤ) : ℚ) / 10000

/-- Shallow embedding of `generate_statistics_report`
(src/utils/statistics.py, lines 4-44): the ordered label-to-value report,
base statistics first (each rounded to 4 places), then the cluster
statistics computed by `identify_clusters` at the fixed threshold 0.5,
with largest and average cluster size defined as 0 when there are no
clusters; the source computes both from `len(cluster)`, which is the
length of the `np.where` tuple (the number of axes, 3 for 3-D data),
not the voxel count. `sqrt` abstracts the square root inside `np.std`
(irrational-valued); an empty data array makes numpy's reductions raise,
re-raised by the `except` block as a `ValueError`. -/
def generateStatisticsReport (sqrt : ℚ → ℚ) (v : Volume) :
    Except AnalysisError (List (String × ℚ)) :=
  if v.data.length = 0 then
    Except.error (AnalysisError.valueError
      "Error generating statistics: zero-size array to reduction operation")
  else
    let size : ℚ := (v.data.length : ℚ)
    let nonzero : ℚ := ((v.data.countP (fun x => decide (x ≠ 0))) : ℚ)
    let mean := v.data.sum / size
    let statsBase : List (String × ℚ) :=
      [("Mean Intensity", round4 mean),
       ("Standard Deviation", round4 (sqrt ((v.data.map (fun x => (x - mean) ^ 2)).sum / size))),
       ("Maximum Value", round4 (listMax v.data)),
       ("Minimum Value", round4 (listMin v.data)),
       ("Number of Non-zero Voxels", round4 nonzero),
       ("Total Volume (voxels)", round4 size),
       ("Percent Active Voxels", round4 (nonzero / size * 100))]
    let clusters := identifyClusters v (1 / 2)
    let clusterStats : List (String × ℚ) :=
      [("Number of Clusters", round4 ((clusters.length : ℚ))),
       ("Largest Cluster Size", round4
          (if clusters = [] then 0 else ((listMaxNat (clusters.map (fun c => c.length))) : ℚ))),
       ("Average Cluster Size", round4
          (if clusters = [] then 0
           else ((clusters.map (fun c => (c.length : ℚ))).sum / (clusters.length : ℚ))))]
    Except.ok (statsBase ++ clusterStats)

/-- Claim C8 (part): thresholding keeps a value iff it is ≥ T and zeroes
it otherwise, and is idempotent at the same T. -/
theorem voxel_threshold_spec (v : Volume) (t : ℚ) :
    (∀ n, n < v.data.length →
      (voxelThreshold v t).data.getD n 0 =
        if t ≤ v.data.getD n 0 then v.data.getD n 0 else 0) ∧
    voxelThreshold (voxelThreshold v t) t = voxelThreshold v t := by
  constructor
  · intro n hn
    have hmap : ∀ (l : List ℚ) (n : ℕ), n < l.length →
        (l.map (fun x => if x < t then 0 else x)).getD n 0 =
          if (l.getD n 0) < t then 0 else l.getD n 0 := by
      intro l
      induction l with
      | nil => intro n hn; simp at hn
      | cons a as ih =>
        intro n hn
        cases n with
        | zero => simp [List.getD]
        | succ m =>
          simp only [List.map_cons, List.getD_cons_succ]
          exact ih m (by simpa using hn)
    have h1 := hmap v.data n hn
    simp only [voxelThreshold] at h1 ⊢
    rw [h1]
    by_cases hx : v.data.getD n 0 < t
    · rw [if_pos hx, if_neg (by exact not_le.mpr hx)]
    · rw [if_neg hx, if_pos (not_lt.mp hx)]
  · simp only [voxelThreshold, List.map_map]
    congr 1
    apply List.map_congr_left
    intro a _
    by_cases ha : a < t
    · simp only [Function.comp_apply, if_pos ha]
      by_cases h0 : (0 : ℚ) < t <;> simp [h0]
    · simp only [Function.comp_apply, if_neg ha]

theorem voxel_threshold_spec_witness :
    (0 : ℕ) < (Volume.mk 1 1 2 [1, 2]).data.length ∧
    (voxelThreshold (Volume.mk 1 1 2 [1, 2]) (3 / 2)).data.getD 0 0 =
      if (3 / 2 : ℚ) ≤ (Volume.mk 1 1 2 [1, 2]).data.getD 0 0 then
        (Volume.mk 1 1 2 [1, 2]).data.getD 0 0
      else 0 :=
  ⟨by decide, (voxel_threshold_spec (Volume.mk 1 1 2 [1, 2]) (3 / 2)).1 0 (by decide)⟩

/-- Claim C5 (amended): on an empty study collection, `perform_ale_analysis`
fails with the generic wrapped exception `ValueError("Error in ALE
analysis: list index out of range")` raised by indexing the empty list,
not with a typed `InsufficientInput` error, and produces no volume. -/
theorem ale_empty_input_value_error (smooth : Volume → Volume)
    (draws : List (List Volume)) (fwe_correction : Bool) (p_threshold : ℚ) :
    performAleAnalysis smooth draws [] fwe_correction p_threshold =
      Except.error (AnalysisError.valueError
        "Error in ALE analysis: list index out of range") := rfl

/-- Claim C5, counterexample to the claim as stated: at the concrete empty
input the result is the generic `ValueError`, which is a different error
value than the spec's typed `InsufficientInput`. -/
theorem ale_empty_input_error_counterexample :
    performAleAnalysis id [] [] true (1 / 20) =
      Except.error (AnalysisError.valueError
        "Error in ALE analysis: list index out of range") ∧
    (decide (performAleAnalysis id [] [] true (1 / 20) =
      Except.error AnalysisError.insufficientInput)) = false := by
  constructor
  · rfl
  · rfl

/-- On a mask with no true entry the raster scan never starts a flood,
so the accumulator is returned unchanged. -/
theorem labelScan_of_false (X Y Z : ℕ) (mask : List Bool)
    (hmask : ∀ b ∈ mask, b = false) :
    ∀ (idxs : List ℕ) (acc : ℕ × List ℕ), labelScan X Y Z mask idxs acc = acc := by
  intro idxs
  induction idxs with
  | nil => intro acc; rfl
  | cons n rest ih =>
    intro acc
    have hg : mask.getD n false = false := by
      rcases Nat.lt_or_ge n mask.length with hlt | hge
      · rw [List.getD_eq_getElem mask false hlt]
        exact hmask _ (List.getElem_mem hlt)
      · exact List.getD_eq_default mask false hge
    simp only [labelScan, hg, Bool.false_and, Bool.false_eq_true, if_false]
    exact ih acc

/-- A volume with no strictly positive voxel has zero labelled features. -/
theorem ndimageLabel_num_zero (v : Volume) (h : ∀ x ∈ v.data, x ≤ 0) :
    (ndimageLabel v).2 = 0 := by
  have hmask : ∀ b ∈ v.data.map (fun q => decide (0 < q)), b = false := by
    intro b hb
    rcases List.mem_map.mp hb with ⟨x, hx, hb⟩
    rw [← hb]
    exact decide_eq_false (not_lt.mpr (h x hx))
  simp [ndimageLabel, ndimageLabelMask, labelScan_of_false _ _ _ _ hmask]


/-- Claim C9: the statistics reporter on the all-zero 4x4x4 volume
returns without raising and reports Percent Active Voxels = 0.0 and
Number of Clusters = 0, with average (and largest) cluster size 0 in the
absence of clusters; `sqrt` is the abstract square root inside the
(unused here) standard-deviation entry. -/
theorem statistics_report_all_zero (sqrt : ℚ → ℚ) :
    ∃ r, generateStatisticsReport sqrt ⟨4, 4, 4, List.replicate 64 0⟩ = Except.ok r ∧
      r.lookup "Percent Active Voxels" = some 0 ∧
      r.lookup "Number of Clusters" = some 0 ∧
      r.lookup "Average Cluster Size" = some 0 ∧
      r.lookup "Largest Cluster Size" = some 0 := by
  refine ⟨_, rfl, ?_, ?_, ?_, ?_⟩ <;> rfl

/-- Claim C1 (amended): a method that is neither fwe nor fdr
(case-insensitively) raises no error; the function falls through the
dispatch and returns the input volume unmodified, and the caller's buffer
is likewise untouched. -/
theorem cluster_correction_unknown_method_returns_input (normCdf : ℚ → ℚ)
    (m : Volume) (method : String) (p : ℚ)
    (h1 : pyLower method ≠ "fwe") (h2 : pyLower method ≠ "fdr") :
    applyClusterCorrection normCdf m method p = Except.ok m ∧
    clusterCorrectionInputAfter normCdf m method p = m := by
  have hac : applyClusterCorrection normCdf m method p = Except.ok m := by
    simp only [applyClusterCorrection, if_neg h1, if_neg h2]
  exact ⟨hac, by simp only [clusterCorrectionInputAfter, hac]⟩

theorem cluster_correction_unknown_method_returns_input_witness :
    pyLower "bonferroni" ≠ "fwe" ∧ pyLower "bonferroni" ≠ "fdr" ∧
    (applyClusterCorrection normCdfStub ⟨1, 1, 3, [1, 0, 2]⟩ "bonferroni" (1 / 20) =
        Except.ok ⟨1, 1, 3, [1, 0, 2]⟩ ∧
      clusterCorrectionInputAfter normCdfStub ⟨1, 1, 3, [1, 0, 2]⟩ "bonferroni" (1 / 20) =
        ⟨1, 1, 3, [1, 0, 2]⟩) :=
  ⟨by decide, by decide,
    cluster_correction_unknown_method_returns_input normCdfStub
      ⟨1, 1, 3, [1, 0, 2]⟩ "bonferroni" (1 / 20) (by decide) (by decide)⟩

/-- Claim C1, counterexample to the claim as stated: with method
"bonferroni" the call succeeds (returns `Except.ok` of the input volume)
rather than failing with an UnsupportedMethod error. -/
theorem cluster_correction_unknown_method_counterexample :
    applyClusterCorrection normCdfStub ⟨1, 1, 3, [1, 0, 2]⟩ "bonferroni" (1 / 20) =
      Except.ok ⟨1, 1, 3, [1, 0, 2]⟩ := by decide

/-- Claim C6 (amended): cluster correction is not pure; the source writes
zeros into its argument and returns the same array, so after a successful
call the caller's volume buffer holds exactly the returned corrected
volume (which can differ from the original contents). -/
theorem cluster_correction_input_buffer_aliases_result (normCdf : ℚ → ℚ)
    (m : Volume) (method : String) (p : ℚ) (out : Volume)
    (h : applyClusterCorrection normCdf m method p = Except.ok out) :
    clusterCorrectionInputAfter normCdf m method p = out := by
  simp only [clusterCorrectionInputAfter, h]

theorem cluster_correction_input_buffer_aliases_result_witness :
    (applyClusterCorrection normCdfStub ⟨1, 1, 4, [1, 0, 1, 1]⟩ "fwe" (1 / 20) =
      Except.ok ⟨1, 1, 4, [0, 0, 1, 1]⟩) ∧
    clusterCorrectionInputAfter normCdfStub ⟨1, 1, 4, [1, 0, 1, 1]⟩ "fwe" (1 / 20) =
      ⟨1, 1, 4, [0, 0, 1, 1]⟩ :=
  ⟨by decide,
    cluster_correction_input_buffer_aliases_result normCdfStub
      ⟨1, 1, 4, [1, 0, 1, 1]⟩ "fwe" (1 / 20) ⟨1, 1, 4, [0, 0, 1, 1]⟩ (by decide)⟩

/-- Claim C6, counterexample to the claim as stated: after FWE correction
of the volume [1, 0, 1, 1] the caller's buffer no longer equals its
original contents (the size-1 cluster was zeroed in place). -/
theorem cluster_correction_mutates_input_counterexample :
    (decide (clusterCorrectionInputAfter normCdfStub ⟨1, 1, 4, [1, 0, 1, 1]⟩ "fwe" (1 / 20) =
      ⟨1, 1, 4, [1, 0, 1, 1]⟩)) = false := by decide

/-- Claim C10: on a volume with no strictly positive voxel the FWE branch
computes the percentile of the empty cluster-size list, which raises; the
call fails instead of returning the volume unchanged. -/
theorem fwe_empty_cluster_list_error (normCdf : ℚ → ℚ) (m : Volume) (p : ℚ)
    (h : ∀ x ∈ m.data, x ≤ 0) :
    ∃ e, applyClusterCorrection normCdf m "fwe" p = Except.error e := by
  have hnum := ndimageLabel_num_zero m h
  refine ⟨AnalysisError.valueError
    ("Error in cluster correction: " ++ "cannot do a non-empty take from an empty axes."), ?_⟩
  simp only [applyClusterCorrection, hnum]
  rfl

theorem fwe_empty_cluster_list_error_witness :
    (∀ x ∈ (Volume.mk 1 1 2 [0, 0]).data, x ≤ 0) ∧
    ∃ e, applyClusterCorrection normCdfStub (Volume.mk 1 1 2 [0, 0]) "fwe" (1 / 20) =
      Except.error e :=
  ⟨by decide, fwe_empty_cluster_list_error normCdfStub (Volume.mk 1 1 2 [0, 0]) (1 / 20) (by decide)⟩

/-- One masked assignment pointwise: position n is zeroed iff its label
is i (positions beyond the data are unaffected defaults on both sides). -/
theorem zeroWhere_getD : ∀ (data : List ℚ) (lab : List ℕ), lab.length = data.length →
    ∀ (i n : ℕ),
    (zeroWhere lab i data).getD n 0 = if lab.getD n 0 = i then 0 else data.getD n 0 := by
  intro data
  induction data with
  | nil =>
    intro lab hlen i n
    have hnil : lab = [] := List.eq_nil_of_length_eq_zero hlen
    subst hnil
    simp [zeroWhere]
  | cons x xs ih =>
    intro lab hlen i n
    cases lab with
    | nil => simp at hlen
    | cons l ls =>
      cases n with
      | zero => simp [zeroWhere]
      | succ m =>
        simp only [zeroWhere, List.zipWith_cons_cons, List.getD_cons_succ]
        exact ih ls (by simpa using hlen) i m

/-- A masked assignment preserves the data length. -/
theorem zeroWhere_length (lab : List ℕ) (i : ℕ) (data : List ℚ)
    (hlen : lab.length = data.length) :
    (zeroWhere lab i data).length = data.length := by
  simp [zeroWhere, List.length_zipWith, hlen]

/-- The correction loop preserves the data length. -/
theorem corrLoop_length {α : Type} (lab : List ℕ) (test : α → Bool) :
    ∀ (pairs : List (ℕ × α)) (data : List ℚ), lab.length = data.length →
    (corrLoop lab test pairs data).length = data.length := by
  intro pairs
  induction pairs with
  | nil => intro data _; rfl
  | cons pr rest ih =>
    intro data hlen
    obtain ⟨i, a⟩ := pr
    cases htest : test a with
    | false => simpa [corrLoop, htest] using ih data hlen
    | true =>
      have h1 : corrLoop lab test ((i, a) :: rest) data =
          corrLoop lab test rest (zeroWhere lab i data) := by
        simp [corrLoop, htest]
      rw [h1, ih (zeroWhere lab i data) (hlen.trans (zeroWhere_length lab i data hlen).symm)]
      exact zeroWhere_length lab i data hlen

/-- Pointwise characterisation of the correction loop: position n ends up
zero iff some enumerated pair carries its label and fails the test. -/
theorem corrLoop_getD {α : Type} (lab : List ℕ) (test : α → Bool) :
    ∀ (pairs : List (ℕ × α)) (data : List ℚ), lab.length = data.length → ∀ n,
    (corrLoop lab test pairs data).getD n 0 =
      if pairs.any (fun pr => decide (lab.getD n 0 = pr.1) && test pr.2) then 0
      else data.getD n 0 := by
  intro pairs
  induction pairs with
  | nil => intro data hlen n; simp [corrLoop]
  | cons pr rest ih =>
    intro data hlen n
    obtain ⟨i, a⟩ := pr
    cases htest : test a with
    | false =>
      have h1 : corrLoop lab test ((i, a) :: rest) data = corrLoop lab test rest data := by
        simp [corrLoop, htest]
      rw [h1, ih data hlen n]
      simp only [List.any_cons, htest, Bool.and_false, Bool.false_or]
    | true =>
      have h1 : corrLoop lab test ((i, a) :: rest) data =
          corrLoop lab test rest (zeroWhere lab i data) := by
        simp [corrLoop, htest]
      rw [h1, ih (zeroWhere lab i data) (hlen.trans (zeroWhere_length lab i data hlen).symm) n,
        zeroWhere_getD data lab hlen i n]
      simp only [List.any_cons, htest, Bool.and_true]
      by_cases hrest : rest.any (fun pr => decide (lab.getD n 0 = pr.1) && test pr.2) = true
      · rw [if_pos hrest, if_pos (by rw [hrest, Bool.or_true])]
      · by_cases hl : lab.getD n 0 = i
        · rw [if_neg hrest, if_pos hl, if_pos (by rw [decide_eq_true hl, Bool.true_or])]
        · have hany : rest.any (fun pr => decide (lab.getD n 0 = pr.1) && test pr.2) = false :=
            Bool.eq_false_iff.mpr hrest
          rw [if_neg hrest, if_neg hl,
            if_neg (by rw [decide_eq_false hl, hany, Bool.or_false]; exact Bool.false_ne_true)]

/-- Membership in the enumeration `zip (range' s) xs`, with an arbitrary
default for reading back the component. -/
theorem zip_range'_mem {α : Type} : ∀ (xs : List α) (s : ℕ) (d : α) (pr : ℕ × α),
    pr ∈ (List.range' s xs.length).zip xs ↔
      ∃ k, k < xs.length ∧ pr = (s + k, xs.getD k d) := by
  intro xs
  induction xs with
  | nil => intro s d pr; simp
  | cons x rest ih =>
    intro s d pr
    rw [List.length_cons, List.range'_succ, List.zip_cons_cons, List.mem_cons]
    constructor
    · rintro (h | h)
      · exact ⟨0, Nat.succ_pos _, by simpa using h⟩
      · rcases (ih (s + 1) d pr).mp h with ⟨k, hk, hpr⟩
        refine ⟨k + 1, by omega, ?_⟩
        rw [hpr, List.getD_cons_succ]
        congr 1
        omega
    · rintro ⟨k, hk, hpr⟩
      cases k with
      | zero => left; simpa using hpr
      | succ j =>
        right
        refine (ih (s + 1) d pr).mpr ⟨j, by omega, ?_⟩
        rw [hpr, List.getD_cons_succ]
        congr 1
        omega

/-- The loop condition over the enumeration `enumerate(xs, 1)` at label l
holds iff l is a valid one-based index into xs whose entry fails the
test. -/
theorem corrLoop_enum_cond {α : Type} (xs : List α) (test : α → Bool) (d : α) (l : ℕ) :
    (((List.range' 1 xs.length).zip xs).any
        (fun pr => decide (l = pr.1) && test pr.2) = true) ↔
      (1 ≤ l ∧ l ≤ xs.length ∧ test (xs.getD (l - 1) d) = true) := by
  rw [List.any_eq_true]
  constructor
  · rintro ⟨pr, hmem, hp⟩
    rcases (zip_range'_mem xs 1 d pr).mp hmem with ⟨k, hk, hpr⟩
    subst hpr
    simp only [Bool.and_eq_true, decide_eq_true_eq] at hp
    obtain ⟨hl, ht⟩ := hp
    subst hl
    refine ⟨by omega, by omega, ?_⟩
    have hkk : 1 + k - 1 = k := by omega
    rw [hkk]
    exact ht
  · rintro ⟨h1, h2, ht⟩
    refine ⟨(1 + (l - 1), xs.getD (l - 1) d),
      (zip_range'_mem xs 1 d _).mpr ⟨l - 1, by omega, rfl⟩, ?_⟩
    simp only [Bool.and_eq_true, decide_eq_true_eq]
    exact ⟨by omega, ht⟩

/-- The flood fill preserves the length of the label list. -/
theorem flood_length (X Y Z : ℕ) (mask : List Bool) (cur : ℕ) :
    ∀ (fuel : ℕ) (stack : List ℕ) (lab : List ℕ),
    (flood X Y Z mask cur fuel stack lab).length = lab.length := by
  intro fuel
  induction fuel with
  | zero => intro stack lab; rfl
  | succ f ih =>
    intro stack lab
    cases stack with
    | nil => rfl
    | cons n rest =>
      by_cases h : (mask.getD n false && decide (lab.getD n 0 = 0)) = true
      · simp only [flood, if_pos h, ih, List.length_set]
      · simp only [flood, if_neg h, ih]

/-- The raster scan preserves the length of the label list. -/
theorem labelScan_sndLength (X Y Z : ℕ) (mask : List Bool) :
    ∀ (idxs : List ℕ) (acc : ℕ × List ℕ),
    (labelScan X Y Z mask idxs acc).2.length = acc.2.length := by
  intro idxs
  induction idxs with
  | nil => intro acc; rfl
  | cons n rest ih =>
    intro acc
    by_cases h : (mask.getD n false && decide (acc.2.getD n 0 = 0)) = true
    · simp only [labelScan, if_pos h, ih]
      exact flood_length X Y Z mask (acc.1 + 1) (6 * mask.length + 1) [n] acc.2
    · simp only [labelScan, if_neg h, ih]

/-- The label array has one entry per voxel. -/
theorem ndimageLabel_fst_length (v : Volume) : (ndimageLabel v).1.length = v.data.length := by
  simp only [ndimageLabel, ndimageLabelMask]
  rw [labelScan_sndLength]
  simp

/-- There are as many recorded cluster sizes as features. -/
theorem clusterSizesArr_length (lab : List ℕ) (num : ℕ) :
    (clusterSizesArr lab num).length = num := by
  simp [clusterSizesArr]


/-- Claim C3: FWE cluster correction computes the size threshold as the
(1 - p)-th percentile (linear interpolation) of the extracted cluster
size list and zeroes exactly the voxels of clusters whose size is
strictly below that threshold; clusters at or above it, and background
voxels, keep their values. -/
theorem fwe_correction_percentile_spec (normCdf : ℚ → ℚ) (m : Volume) (p : ℚ)
    (hp0 : 0 ≤ p) (hp1 : p ≤ 1) (hcl : 1 ≤ (ndimageLabel m).2) :
    ∃ t out,
      percentile ((clusterSizesArr (ndimageLabel m).1 (ndimageLabel m).2).map
          (fun (s : ℕ) => (s : ℚ))) ((1 - p) * 100) = Except.ok t ∧
      applyClusterCorrection normCdf m "fwe" p = Except.ok out ∧
      out.dimx = m.dimx ∧ out.dimy = m.dimy ∧ out.dimz = m.dimz ∧
      out.data.length = m.data.length ∧
      ∀ n, n < m.data.length →
        out.data.getD n 0 =
          if 1 ≤ (ndimageLabel m).1.getD n 0 ∧
             (ndimageLabel m).1.getD n 0 ≤ (ndimageLabel m).2 ∧
             (((clusterSizesArr (ndimageLabel m).1 (ndimageLabel m).2).getD
                 ((ndimageLabel m).1.getD n 0 - 1) 0 : ℕ) : ℚ) < t
          then 0 else m.data.getD n 0 := by
  have hlab : (ndimageLabel m).1.length = m.data.length := ndimageLabel_fst_length m
  have hcslen : (clusterSizesArr (ndimageLabel m).1 (ndimageLabel m).2).length =
      (ndimageLabel m).2 := clusterSizesArr_length _ _
  have hqne : (clusterSizesArr (ndimageLabel m).1 (ndimageLabel m).2).map
      (fun (s : ℕ) => (s : ℚ)) ≠ [] := by
    intro hbad
    have hlen0 := congrArg List.length hbad
    simp only [List.length_map, List.length_nil, hcslen] at hlen0
    omega
  obtain ⟨c, cs', hcons⟩ := List.exists_cons_of_ne_nil hqne
  have hqrange : ¬((1 - p) * 100 < 0 ∨ 100 < (1 - p) * 100) := by
    push_neg
    constructor <;> nlinarith
  have hper : percentile ((clusterSizesArr (ndimageLabel m).1 (ndimageLabel m).2).map
      (fun (s : ℕ) => (s : ℚ))) ((1 - p) * 100) =
      Except.ok (interpolatedValue (insertionSort (c :: cs')) ((c :: cs').length)
        ((1 - p) * 100)) := by
    rw [hcons]
    simp only [percentile]
    rw [if_neg hqrange]
  have hfun : applyClusterCorrection normCdf m "fwe" p =
      Except.ok { m with data :=
        (corrLoop (ndimageLabel m).1
          (fun (size : ℕ) => decide ((size : ℚ) <
            interpolatedValue (insertionSort (c :: cs')) ((c :: cs').length) ((1 - p) * 100)))
          ((List.range' 1 (clusterSizesArr (ndimageLabel m).1 (ndimageLabel m).2).length).zip
            (clusterSizesArr (ndimageLabel m).1 (ndimageLabel m).2)) m.data) } := by
    simp only [applyClusterCorrection]
    rw [if_pos (show pyLower "fwe" = "fwe" from by decide), hper]
  have hpt : ∀ n,
      (corrLoop (ndimageLabel m).1
          (fun (size : ℕ) => decide ((size : ℚ) <
            interpolatedValue (insertionSort (c :: cs')) ((c :: cs').length) ((1 - p) * 100)))
          ((List.range' 1 (clusterSizesArr (ndimageLabel m).1 (ndimageLabel m).2).length).zip
            (clusterSizesArr (ndimageLabel m).1 (ndimageLabel m).2)) m.data).getD n 0 =
        if 1 ≤ (ndimageLabel m).1.getD n 0 ∧
           (ndimageLabel m).1.getD n 0 ≤ (ndimageLabel m).2 ∧
           (((clusterSizesArr (ndimageLabel m).1 (ndimageLabel m).2).getD
               ((ndimageLabel m).1.getD n 0 - 1) 0 : ℕ) : ℚ) <
             interpolatedValue (insertionSort (c :: cs')) ((c :: cs').length) ((1 - p) * 100)
        then 0 else m.data.getD n 0 := by
    intro n
    rw [corrLoop_getD _ _ _ _ hlab n]
    rw [if_congr (corrLoop_enum_cond
      (clusterSizesArr (ndimageLabel m).1 (ndimageLabel m).2)
      (fun (size : ℕ) => decide ((size : ℚ) <
        interpolatedValue (insertionSort (c :: cs')) ((c :: cs').length) ((1 - p) * 100)))
      0 ((ndimageLabel m).1.getD n 0)) rfl rfl]
    simp only [hcslen, decide_eq_true_eq]
  exact ⟨_, _, hper, hfun, rfl, rfl, rfl, corrLoop_length _ _ _ _ hlab, fun n _ => hpt n⟩

theorem fwe_correction_percentile_spec_witness :
    0 ≤ (1 / 20 : ℚ) ∧ (1 / 20 : ℚ) ≤ 1 ∧ 1 ≤ (ndimageLabel fweScenarioMap).2 ∧
    (∃ t out,
      percentile ((clusterSizesArr (ndimageLabel fweScenarioMap).1
          (ndimageLabel fweScenarioMap).2).map (fun (s : ℕ) => (s : ℚ)))
          ((1 - (1 / 20 : ℚ)) * 100) = Except.ok t ∧
      applyClusterCorrection normCdfStub fweScenarioMap "fwe" (1 / 20) = Except.ok out ∧
      out.dimx = fweScenarioMap.dimx ∧ out.dimy = fweScenarioMap.dimy ∧
      out.dimz = fweScenarioMap.dimz ∧
      out.data.length = fweScenarioMap.data.length ∧
      ∀ n, n < fweScenarioMap.data.length →
        out.data.getD n 0 =
          if 1 ≤ (ndimageLabel fweScenarioMap).1.getD n 0 ∧
             (ndimageLabel fweScenarioMap).1.getD n 0 ≤ (ndimageLabel fweScenarioMap).2 ∧
             (((clusterSizesArr (ndimageLabel fweScenarioMap).1
                 (ndimageLabel fweScenarioMap).2).getD
                 ((ndimageLabel fweScenarioMap).1.getD n 0 - 1) 0 : ℕ) : ℚ) < t
          then 0 else fweScenarioMap.data.getD n 0) ∧
    clusterSizesArr (ndimageLabel fweScenarioMap).1 (ndimageLabel fweScenarioMap).2 =
      [1, 1, 1, 1, 100] ∧
    applyClusterCorrection normCdfStub fweScenarioMap "fwe" (1 / 20) =
      Except.ok ⟨1, 1, 108, List.replicate 8 0 ++ List.replicate 100 1⟩ ∧
    percentile [1, 1, 1, 1, 100] ((1 - (1 / 20 : ℚ)) * 100) = Except.ok (401 / 5) :=
  ⟨by norm_num, by norm_num, by decide,
    fwe_correction_percentile_spec normCdfStub fweScenarioMap (1 / 20)
      (by norm_num) (by norm_num) (by decide),
    by decide, by decide, by decide⟩

/-- Claim C4 (code bug): the source would assign nominal p-values and
apply Benjamini-Hochberg correction, but it calls `stats.fdrcorrection`
with `stats` imported from scipy, and `scipy.stats` has no such
attribute (the routine belongs to statsmodels); every FDR invocation,
the 1 x 1 x 1 volume [1] included, therefore raises AttributeError,
re-raised by the `except` block as a `ValueError`, after computing the
nominal p-values but before any correction or zeroing occurs. -/
theorem fdr_branch_always_raises (normCdf : ℚ → ℚ) (m : Volume) (p : ℚ) :
    applyClusterCorrection normCdf m "fdr" p =
      Except.error (AnalysisError.valueError
        "Error in cluster correction: module scipy.stats has no attribute fdrcorrection") := by
  simp only [applyClusterCorrection]
  rw [if_neg (show ¬pyLower "fdr" = "fwe" from by decide),
    if_pos (show pyLower "fdr" = "fdr" from by decide)]

/-- A fold by a right-commutative operation is invariant under
permutation of the list. -/
theorem foldl_perm_of_rcomm {α β : Type} (f : β → α → β)
    (hf : ∀ b a₁ a₂, f (f b a₁) a₂ = f (f b a₂) a₁) :
    ∀ {l₁ l₂ : List α}, l₁.Perm l₂ → ∀ b, l₁.foldl f b = l₂.foldl f b := by
  intro l₁ l₂ h
  induction h with
  | nil => intro b; rfl
  | cons x _ ih => intro b; simp only [List.foldl_cons]; exact ih _
  | swap x y l => intro b; simp only [List.foldl_cons, hf]
  | trans _ _ ih₁ ih₂ => intro b; rw [ih₁, ih₂]

/-- Elementwise list addition is right-commutative (no length hypothesis
needed: both sides truncate to the same minimum length). -/
theorem zipWith_add_rcomm : ∀ (a x y : List ℚ),
    List.zipWith (· + ·) (List.zipWith (· + ·) a x) y =
    List.zipWith (· + ·) (List.zipWith (· + ·) a y) x := by
  intro a
  induction a with
  | nil => intro x y; simp
  | cons h t ih =>
    intro x y
    cases x with
    | nil => simp
    | cons xh xt =>
      cases y with
      | nil => simp
      | cons yh yt =>
        simp only [List.zipWith_cons_cons]
        rw [ih xt yt]
        congr 1
        ring

/-- Volume accumulation is right-commutative. -/
theorem addVol_rcomm (b v w : Volume) : addVol (addVol b v) w = addVol (addVol b w) v :=
  congrArg (fun d => { b with data := d }) (zipWith_add_rcomm b.data v.data w.data)

/-- Both accumulation folds of the ALE pipeline are invariant under
permuting the input collection, given same-shape inputs and a
shape-preserving smoothing function. -/
theorem aleFold_perm (smooth : Volume → Volume)
    (hs : ∀ v, (smooth v).dimx = v.dimx ∧ (smooth v).dimy = v.dimy ∧
      (smooth v).dimz = v.dimz ∧ (smooth v).data.length = v.data.length)
    (X Y Z L : ℕ) (maps shuffled : List Volume)
    (hne : maps ≠ [])
    (hshape : ∀ v ∈ maps, v.dimx = X ∧ v.dimy = Y ∧ v.dimz = Z ∧ v.data.length = L)
    (hperm : shuffled.Perm maps) :
    (shuffled.map smooth).foldl addVol
        (zerosLike ((shuffled.map smooth).headD ⟨0, 0, 0, []⟩)) =
      maps.foldl (fun acc d => addVol acc (smooth d)) (zerosLike (maps.headD ⟨0, 0, 0, []⟩)) ∧
    shuffled.foldl (fun acc d => addVol acc (smooth d))
        (zerosLike (shuffled.headD ⟨0, 0, 0, []⟩)) =
      maps.foldl (fun acc d => addVol acc (smooth d)) (zerosLike (maps.headD ⟨0, 0, 0, []⟩)) := by
  obtain ⟨m0, mt, rfl⟩ := List.exists_cons_of_ne_nil hne
  have hsne : shuffled ≠ [] := by
    intro h
    subst h
    exact (List.cons_ne_nil m0 mt) hperm.symm.eq_nil
  obtain ⟨s, st, rfl⟩ := List.exists_cons_of_ne_nil hsne
  have hsmem : s ∈ m0 :: mt := hperm.subset (List.mem_cons_self s st)
  obtain ⟨hs1, hs2, hs3, hs4⟩ := hshape s hsmem
  obtain ⟨hm1, hm2, hm3, hm4⟩ := hshape m0 (List.mem_cons_self m0 mt)
  obtain ⟨he1, he2, he3, he4⟩ := hs s
  have hzs : zerosLike (smooth s) = Volume.mk X Y Z (List.replicate L 0) := by
    simp [zerosLike, he1, he2, he3, he4, hs1, hs2, hs3, hs4]
  have hzss : zerosLike s = Volume.mk X Y Z (List.replicate L 0) := by
    simp [zerosLike, hs1, hs2, hs3, hs4]
  have hzm : zerosLike m0 = Volume.mk X Y Z (List.replicate L 0) := by
    simp [zerosLike, hm1, hm2, hm3, hm4]
  constructor
  · show ((s :: st).map smooth).foldl addVol (zerosLike (smooth s)) = _
    rw [hzs, foldl_perm_of_rcomm addVol addVol_rcomm (hperm.map smooth),
      List.foldl_map, ← hzm]
    rfl
  · show (s :: st).foldl (fun acc d => addVol acc (smooth d)) (zerosLike s) = _
    rw [hzss, ← List.foldl_map, foldl_perm_of_rcomm addVol addVol_rcomm (hperm.map smooth),
      List.foldl_map, ← hzm]
    rfl

/-- Claim C2: one iteration of the null-estimation loop, run on any drawn
reordering of the study collection, records exactly the maximum voxel
value of the unpermuted pooled ALE volume; hence every NullSample of one
run is the same scalar and the empirical null distribution is constant. -/
theorem null_sample_equals_unpermuted_max (smooth : Volume → Volume)
    (hs : ∀ v, (smooth v).dimx = v.dimx ∧ (smooth v).dimy = v.dimy ∧
      (smooth v).dimz = v.dimz ∧ (smooth v).data.length = v.data.length)
    (X Y Z L : ℕ) (maps shuffled : List Volume)
    (hne : maps ≠ [])
    (hshape : ∀ v ∈ maps, v.dimx = X ∧ v.dimy = Y ∧ v.dimz = Z ∧ v.data.length = L)
    (hperm : shuffled.Perm maps) :
    nullSampleOf smooth shuffled = listMax (aleValuesOf smooth maps).data := by
  have hfold := (aleFold_perm smooth hs X Y Z L maps shuffled hne hshape hperm).1
  have hlen : (shuffled.map smooth).length = maps.length := by
    rw [List.length_map, hperm.length_eq]
  simp only [nullSampleOf, meanVols, aleValuesOf]
  rw [hfold, hlen]

theorem null_sample_equals_unpermuted_max_witness :
    ([Volume.mk 1 1 2 [1, 0], Volume.mk 1 1 2 [3, 1]] : List Volume) ≠ [] ∧
    (∀ v ∈ ([Volume.mk 1 1 2 [1, 0], Volume.mk 1 1 2 [3, 1]] : List Volume),
      v.dimx = 1 ∧ v.dimy = 1 ∧ v.dimz = 2 ∧ v.data.length = 2) ∧
    ([Volume.mk 1 1 2 [3, 1], Volume.mk 1 1 2 [1, 0]] : List Volume).Perm
      [Volume.mk 1 1 2 [1, 0], Volume.mk 1 1 2 [3, 1]] ∧
    nullSampleOf id [Volume.mk 1 1 2 [3, 1], Volume.mk 1 1 2 [1, 0]] =
      listMax (aleValuesOf id [Volume.mk 1 1 2 [1, 0], Volume.mk 1 1 2 [3, 1]]).data ∧
    nullSampleOf id [Volume.mk 1 1 2 [3, 1], Volume.mk 1 1 2 [1, 0]] = 2 :=
  ⟨by decide, by decide,
    List.Perm.swap (Volume.mk 1 1 2 [1, 0]) (Volume.mk 1 1 2 [3, 1]) [],
    null_sample_equals_unpermuted_max id (fun v => ⟨rfl, rfl, rfl, rfl⟩) 1 1 2 2
      [Volume.mk 1 1 2 [1, 0], Volume.mk 1 1 2 [3, 1]]
      [Volume.mk 1 1 2 [3, 1], Volume.mk 1 1 2 [1, 0]]
      (by decide) (by decide)
      (List.Perm.swap (Volume.mk 1 1 2 [1, 0]) (Volume.mk 1 1 2 [3, 1]) []),
    by decide⟩

/-- Reading a voxel of an elementwise sum of equal-length lists. -/
theorem getD_zipWith_add : ∀ (a b : List ℚ), a.length = b.length → ∀ n,
    (List.zipWith (· + ·) a b).getD n 0 = a.getD n 0 + b.getD n 0 := by
  intro a
  induction a with
  | nil =>
    intro b h n
    have hb : b = [] := List.eq_nil_of_length_eq_zero h.symm
    subst hb
    simp
  | cons x xs ih =>
    intro b h n
    cases b with
    | nil => simp at h
    | cons y ys =>
      cases n with
      | zero => simp
      | succ k =>
        simp only [List.zipWith_cons_cons, List.getD_cons_succ]
        exact ih ys (by simpa using h) k

/-- Reading a voxel of a scalar division (out-of-range reads are 0 on
both sides since 0 / k = 0 in ℚ). -/
theorem getD_map_div : ∀ (l : List ℚ) (k : ℚ) (n : ℕ),
    (l.map (fun x => x / k)).getD n 0 = l.getD n 0 / k := by
  intro l k
  induction l with
  | nil => intro n; simp
  | cons x xs ih =>
    intro n
    cases n with
    | zero => simp
    | succ m =>
      simp only [List.map_cons, List.getD_cons_succ]
      exact ih m

/-- Every voxel of an all-zero list reads 0. -/
theorem getD_replicate_zero : ∀ (k n : ℕ), (List.replicate k (0 : ℚ)).getD n 0 = 0 := by
  intro k
  induction k with
  | zero => intro n; simp
  | succ j ih =>
    intro n
    cases n with
    | zero => simp [List.replicate_succ]
    | succ m =>
      simp only [List.replicate_succ, List.getD_cons_succ]
      exact ih m

/-- Each voxel of the accumulation fold is the starting value plus the
sum of the smoothed per-study values at that voxel. -/
theorem foldl_addSmooth_getD (smooth : Volume → Volume) :
    ∀ (ms : List Volume) (acc : Volume),
    (∀ v ∈ ms, (smooth v).data.length = acc.data.length) → ∀ n,
    (ms.foldl (fun a d => addVol a (smooth d)) acc).data.getD n 0 =
      acc.data.getD n 0 + (ms.map (fun v => (smooth v).data.getD n 0)).sum := by
  intro ms
  induction ms with
  | nil => intro acc _ n; simp
  | cons v vs ih =>
    intro acc hlen n
    have hv : (smooth v).data.length = acc.data.length := hlen v (List.mem_cons_self v vs)
    have hacc' : (addVol acc (smooth v)).data.length = acc.data.length := by
      simp [addVol, List.length_zipWith, hv]
    simp only [List.foldl_cons]
    rw [ih (addVol acc (smooth v))
      (fun u hu => (hlen u (List.mem_cons_of_mem v hu)).trans hacc'.symm) n]
    rw [show (addVol acc (smooth v)).data = List.zipWith (· + ·) acc.data (smooth v).data
      from rfl]
    rw [getD_zipWith_add acc.data (smooth v).data hv.symm n]
    simp only [List.map_cons, List.sum_cons]
    ring

/-- Claim C7: the pooled ALE volume is invariant under permuting the
input collection, and each of its voxels is the unweighted arithmetic
mean (sum divided by the study count) of the smoothed per-study values at
that voxel. -/
theorem ale_aggregation_perm_invariant_mean (smooth : Volume → Volume)
    (hs : ∀ v, (smooth v).dimx = v.dimx ∧ (smooth v).dimy = v.dimy ∧
      (smooth v).dimz = v.dimz ∧ (smooth v).data.length = v.data.length)
    (X Y Z L : ℕ) (maps shuffled : List Volume)
    (hne : maps ≠ [])
    (hshape : ∀ v ∈ maps, v.dimx = X ∧ v.dimy = Y ∧ v.dimz = Z ∧ v.data.length = L)
    (hperm : shuffled.Perm maps) :
    aleValuesOf smooth shuffled = aleValuesOf smooth maps ∧
    ∀ n, n < L → (aleValuesOf smooth maps).data.getD n 0 =
      (maps.map (fun v => (smooth v).data.getD n 0)).sum / (maps.length : ℚ) := by
  constructor
  · have hfold := (aleFold_perm smooth hs X Y Z L maps shuffled hne hshape hperm).2
    simp only [aleValuesOf]
    rw [hfold, hperm.length_eq]
  · intro n hn
    obtain ⟨m0, mt, rfl⟩ := List.exists_cons_of_ne_nil hne
    have hm4 : m0.data.length = L := (hshape m0 (List.mem_cons_self m0 mt)).2.2.2
    have hlens : ∀ v ∈ m0 :: mt, (smooth v).data.length = (zerosLike m0).data.length := by
      intro v hv
      show (smooth v).data.length = (List.replicate m0.data.length (0 : ℚ)).length
      rw [List.length_replicate, (hs v).2.2.2, (hshape v hv).2.2.2, hm4]
    show (((m0 :: mt).foldl (fun acc d => addVol acc (smooth d))
        (zerosLike m0)).data.map (fun x => x / (((m0 :: mt).length : ℕ) : ℚ))).getD n 0 = _
    rw [getD_map_div, foldl_addSmooth_getD smooth (m0 :: mt) (zerosLike m0) hlens n]
    rw [show (zerosLike m0).data = List.replicate m0.data.length 0 from rfl,
      getD_replicate_zero, zero_add]

theorem ale_aggregation_perm_invariant_mean_witness :
    ([Volume.mk 1 1 2 [1, 0], Volume.mk 1 1 2 [3, 1]] : List Volume) ≠ [] ∧
    (∀ v ∈ ([Volume.mk 1 1 2 [1, 0], Volume.mk 1 1 2 [3, 1]] : List Volume),
      v.dimx = 1 ∧ v.dimy = 1 ∧ v.dimz = 2 ∧ v.data.length = 2) ∧
    (0 : ℕ) < 2 ∧
    (aleValuesOf id [Volume.mk 1 1 2 [3, 1], Volume.mk 1 1 2 [1, 0]] =
      aleValuesOf id [Volume.mk 1 1 2 [1, 0], Volume.mk 1 1 2 [3, 1]]) ∧
    (aleValuesOf id [Volume.mk 1 1 2 [1, 0], Volume.mk 1 1 2 [3, 1]]).data.getD 0 0 =
      (([Volume.mk 1 1 2 [1, 0], Volume.mk 1 1 2 [3, 1]] : List Volume).map
        (fun v => (id v).data.getD 0 0)).sum /
        (([Volume.mk 1 1 2 [1, 0], Volume.mk 1 1 2 [3, 1]] : List Volume).length : ℚ) :=
  ⟨by decide, by decide, by decide,
    (ale_aggregation_perm_invariant_mean id (fun v => ⟨rfl, rfl, rfl, rfl⟩) 1 1 2 2
      [Volume.mk 1 1 2 [1, 0], Volume.mk 1 1 2 [3, 1]]
      [Volume.mk 1 1 2 [3, 1], Volume.mk 1 1 2 [1, 0]]
      (by decide) (by decide)
      (List.Perm.swap (Volume.mk 1 1 2 [1, 0]) (Volume.mk 1 1 2 [3, 1]) [])).1,
    (ale_aggregation_perm_invariant_mean id (fun v => ⟨rfl, rfl, rfl, rfl⟩) 1 1 2 2
      [Volume.mk 1 1 2 [1, 0], Volume.mk 1 1 2 [3, 1]]
      [Volume.mk 1 1 2 [3, 1], Volume.mk 1 1 2 [1, 0]]
      (by decide) (by decide)
      (List.Perm.swap (Volume.mk 1 1 2 [1, 0]) (Volume.mk 1 1 2 [3, 1]) [])).2 0 (by decide)⟩
